import Mathlib

/-
Verification of the pamparser library (a parser, editor and writer for Linux
PAM configuration files). The Go sources are embedded shallowly: Go strings
become lists of characters, Go slices become Lean lists, the in-place editor
operations become functions from the rule sequence to the rule sequence, and
the one loop of the writer that is not structurally bounded
(handleLineContinuation) takes an explicit fuel argument. Every definition
follows the corresponding Go function of parser.go, writer.go or editor.go.
-/

deriving instance DecidableEq for Except

namespace Pamparser

/-- Go strings, modelled as lists of characters. -/
abbrev Str := List Char

/-! ## Character-class and trimming helpers (strings.TrimSpace and friends) -/

/-- Whitespace as Go's unicode.IsSpace sees it, restricted to ASCII
(strings.TrimSpace, strings.Fields). -/
def isGoSpace (c : Char) : Bool :=
  c = ' ' || c = '\t' || c = '\n' || c = '\r' || c = '\x0b' || c = '\x0c'

/-- Whitespace of the regexp class \s (as in the parser's commentPattern):
tab, newline, form feed, carriage return, space. -/
def isReSpace (c : Char) : Bool :=
  c = ' ' || c = '\t' || c = '\n' || c = '\r' || c = '\x0c'

/-- The cutset " \t\n\r" that parseLine hands to strings.TrimRight. -/
def isLineCut (c : Char) : Bool :=
  c = ' ' || c = '\t' || c = '\n' || c = '\r'

/-- strings.TrimLeft for the TrimSpace cutset. -/
def trimLeftGo (l : Str) : Str := l.dropWhile isGoSpace

/-- strings.TrimRight for the TrimSpace cutset. -/
def trimRightGo (l : Str) : Str := (l.reverse.dropWhile isGoSpace).reverse

/-- strings.TrimSpace. -/
def trimSpaceGo (l : Str) : Str := trimRightGo (trimLeftGo l)

/-- strings.TrimRight(line, " \t\n\r") as used by parseLine. -/
def trimRightCut (l : Str) : Str := (l.reverse.dropWhile isLineCut).reverse

/-- strings.ToLower, restricted to ASCII. -/
def toLowerStr (l : Str) : Str := l.map Char.toLower

/-- strings.TrimPrefix(s, "-"): drop one leading dash when present. -/
def dropDashOne : Str → Str
  | '-' :: rest => rest
  | l => l

/-- strings.Join(tokens, " "). -/
def joinSpace : List Str → Str
  | [] => []
  | [t] => t
  | t :: rest => t ++ ' ' :: joinSpace rest

/-- strings.Fields: split on runs of whitespace. `cur` accumulates the
current field in reverse. -/
def goFieldsAux (cur : Str) : Str → List Str
  | [] => if cur.isEmpty then [] else [cur.reverse]
  | c :: rest =>
    if isGoSpace c then
      if cur.isEmpty then goFieldsAux [] rest else cur.reverse :: goFieldsAux [] rest
    else goFieldsAux (c :: cur) rest

/-- strings.Fields. -/
def goFields (l : Str) : List Str := goFieldsAux [] l

/-! ## tokenizeLine (parser.go): split a line into tokens, respecting brackets.

The Go loop carries the flag `inBrackets` and a builder `current`; both are
explicit arguments here. A `#` outside brackets ends tokenization and the
rest of the line (the `#` included) becomes one final token. Note the `]`
case has no backslash handling: any `]` closes an open bracket span. -/

def tokenizeAux : Bool → Str → Str → List Str
  | _, cur, [] => if cur.isEmpty then [] else [cur]
  | inB, cur, c :: rest =>
    if c = '[' then
      if inB then tokenizeAux true (cur ++ [c]) rest
      else if cur.isEmpty then tokenizeAux true [c] rest
      else cur :: tokenizeAux true [c] rest
    else if c = ']' then
      if inB then (cur ++ [c]) :: tokenizeAux false [] rest
      else tokenizeAux false (cur ++ [c]) rest
    else if c = ' ' ∨ c = '\t' then
      if inB then tokenizeAux inB (cur ++ [c]) rest
      else if cur.isEmpty then tokenizeAux inB [] rest
      else cur :: tokenizeAux inB [] rest
    else if c = '#' then
      if inB then tokenizeAux inB (cur ++ [c]) rest
      else (if cur.isEmpty then [] else [cur]) ++ [c :: rest]
    else tokenizeAux inB (cur ++ [c]) rest

/-- tokenizeLine of parser.go. -/
def tokenizeLine (line : Str) : List Str := tokenizeAux false [] line

/-! ## parseArguments (parser.go): module arguments with bracket escaping.

The Go code scans with an index `i` and a bracket `depth`; here the scan is a
state machine over the remaining characters. `bare` is the unbracketed-token
loop, `brack` the bracketed loop carrying the depth and the consumed content
(in reverse), and `brackSlash` the middle of the two-character escape skip
(`argStr[i] == '\\' && i+1 < len(argStr)` consumes both characters). An
unterminated bracket span at end of input produces no argument. -/

/-- strings.ReplaceAll(content, "\\" ++ [t], [t]): scan left to right; at a
two-character match of backslash-then-t emit t and skip both, else emit one
character and move on. -/
def replaceEsc (t : Char) : Str → Str
  | [] => []
  | [c] => [c]
  | c :: c2 :: rest =>
    if c = '\\' ∧ c2 = t then c2 :: replaceEsc t rest
    else c :: replaceEsc t (c2 :: rest)

/-- The two ReplaceAll calls of parseArguments: first `\]` → `]`,
then `\[` → `[`. -/
def unescapeArg (content : Str) : Str := replaceEsc '[' (replaceEsc ']' content)

/-- The scanner states of parseArguments (see above). -/
inductive ArgScan
  | outside
  | bare (acc : Str)
  | brack (depth : Nat) (acc : Str)
  | brackSlash (depth : Nat) (acc : Str)
deriving DecidableEq

def parseArgsAux : ArgScan → Str → List Str
  | .outside, [] => []
  | .bare acc, [] => [acc.reverse]
  | .brack _ _, [] => []
  | .brackSlash _ _, [] => []
  | .outside, c :: rest =>
    if c = ' ' ∨ c = '\t' then parseArgsAux .outside rest
    else if c = '[' then parseArgsAux (.brack 1 []) rest
    else parseArgsAux (.bare [c]) rest
  | .bare acc, c :: rest =>
    if c = ' ' ∨ c = '\t' then acc.reverse :: parseArgsAux .outside rest
    else if c = '[' then acc.reverse :: parseArgsAux (.brack 1 []) rest
    else parseArgsAux (.bare (c :: acc)) rest
  | .brack d acc, c :: rest =>
    if c = '\\' then parseArgsAux (.brackSlash d ('\\' :: acc)) rest
    else if c = '[' then parseArgsAux (.brack (d + 1) ('[' :: acc)) rest
    else if c = ']' then
      if d = 1 then unescapeArg acc.reverse :: parseArgsAux .outside rest
      else parseArgsAux (.brack (d - 1) (']' :: acc)) rest
    else parseArgsAux (.brack d (c :: acc)) rest
  | .brackSlash d acc, c :: rest => parseArgsAux (.brack d (c :: acc)) rest

/-- parseArguments of parser.go. -/
def parseArguments (argStr : Str) : List Str :=
  if argStr = [] then [] else parseArgsAux .outside (trimSpaceGo argStr)

/-! ## formatArguments (writer.go) -/

/-- strings.ContainsAny(arg, " \t\n[]"). -/
def hasSpecialArgChar (arg : Str) : Bool :=
  arg.any fun c => c = ' ' || c = '\t' || c = '\n' || c = '[' || c = ']'

/-- strings.ReplaceAll(arg, "]", "\\]"): the writer escapes only `]`. -/
def escapeCloseBracket : Str → Str
  | [] => []
  | c :: rest =>
    if c = ']' then '\\' :: ']' :: escapeCloseBracket rest
    else c :: escapeCloseBracket rest

/-- formatArguments of writer.go. -/
def formatArguments (args : List Str) : Str :=
  joinSpace (args.map fun arg =>
    if hasSpecialArgChar arg then '[' :: (escapeCloseBracket arg ++ [']']) else arg)

/-! ## Control parsing (parser.go): simple keywords and complex [key=value] syntax -/

/-- A value of the complex control mapping: an integer jump count or an
action keyword kept verbatim (Go stores an ActionType or an int in `any`). -/
inductive CtrlVal
  | jump (n : Int)
  | action (a : Str)
deriving DecidableEq

/-- Digits read by fmt.Sscanf(actionStr, "%d", ...): an optional sign
followed by at least one digit; trailing characters are ignored
(Sscanf reports n == 1 as soon as an integer was read). -/
def leadingDigits (s : Str) : Str := s.takeWhile Char.isDigit

def natOfDigits (ds : Str) : Nat := ds.foldl (fun n c => n * 10 + (c.toNat - '0'.toNat)) 0

def sscanfInt (s : Str) : Option Int :=
  match s with
  | '-' :: rest =>
    if (leadingDigits rest).isEmpty then none
    else some (-(natOfDigits (leadingDigits rest) : Int))
  | '+' :: rest =>
    if (leadingDigits rest).isEmpty then none
    else some (natOfDigits (leadingDigits rest) : Int)
  | _ =>
    if (leadingDigits s).isEmpty then none
    else some (natOfDigits (leadingDigits s) : Int)

/-- The Control struct of parser.go. The Go map[ReturnValue]any is an
association list with unique keys (see mapSet). -/
structure Control where
  simple : Option Str := none
  complex : Option (List (Str × CtrlVal)) := none
  optional : Bool := false
deriving DecidableEq

instance : Inhabited Control := ⟨{}⟩

/-- The closed enumeration of simple control keywords. -/
def validControlTypes : List Str :=
  ["required".data, "requisite".data, "sufficient".data, "optional".data,
   "include".data, "substack".data]

/-- IsValidControlType of parser.go. -/
def IsValidControlType (c : Str) : Bool := validControlTypes.contains (toLowerStr c)

/-- The closed enumeration of module types. -/
def validModuleTypes : List Str :=
  ["account".data, "auth".data, "password".data, "session".data,
   "session-noninteractive".data]

/-- IsValidModuleType of parser.go: lower-case, strip one `-`, then check
membership. -/
def IsValidModuleType (t : Str) : Bool :=
  validModuleTypes.contains (dropDashOne (toLowerStr t))

/-- GetModuleTypeOrder of parser.go (no lower-casing here). -/
def GetModuleTypeOrder (moduleType : Str) : Nat :=
  let t := dropDashOne moduleType
  if t = "account".data then 0
  else if t = "auth".data then 1
  else if t = "password".data then 2
  else if t = "session".data then 3
  else if t = "session-noninteractive".data then 4
  else 5

/-- GetNormalizedModuleType of parser.go. -/
def GetNormalizedModuleType (moduleType : Str) : Str := dropDashOne moduleType

/-- The parse errors of parser.go and editor.go, without their message text. -/
inductive PErr
  | emptyRule
  | emptyDirective
  | notDirective
  | missingDirectiveTarget
  | unknownDirective
  | invalidControlType
  | malformedControl
  | missingService
  | missingType
  | invalidModuleType
  | missingControl
  | missingModulePath
  | indexOutOfRange
  | noMatch
deriving DecidableEq

/-- Assignment `control.Complex[returnVal] = v` on the association list:
overwrite the existing key or append a new one. -/
def mapSet (k : Str) (v : CtrlVal) : List (Str × CtrlVal) → List (Str × CtrlVal)
  | [] => [(k, v)]
  | (k', v') :: rest => if k' = k then (k, v) :: rest else (k', v') :: mapSet k v rest

/-- One `key=value` pair of parseComplexControl: strings.SplitN(pair, "=", 2)
yields two parts exactly when the pair contains a `=`; the value is
everything after the first `=`. -/
def parsePair (pair : Str) : Except PErr (Str × CtrlVal) :=
  if pair.contains '=' then
    let k := pair.takeWhile (· != '=')
    let v := (pair.dropWhile (· != '=')).tail
    match sscanfInt v with
    | some n => .ok (k, .jump n)
    | none => .ok (k, .action v)
  else .error .malformedControl

/-- The pair loop of parseComplexControl. -/
def buildComplex : List Str → List (Str × CtrlVal) → Except PErr (List (Str × CtrlVal))
  | [], acc => .ok acc
  | p :: rest, acc =>
    match parsePair p with
    | .error e => .error e
    | .ok (k, v) => buildComplex rest (mapSet k v acc)

/-- strings.TrimSuffix for a one-character suffix. -/
def trimSuffixChar (c : Char) (l : Str) : Str :=
  if l.getLast? == some c then l.dropLast else l

/-- strings.TrimPrefix for a one-character prefix. -/
def trimPrefixCharGo (c : Char) (l : Str) : Str :=
  match l with
  | [] => []
  | c' :: rest => if c' = c then rest else c' :: rest

/-- parseComplexControl of parser.go. -/
def parseComplexControl (controlStr : Str) (opt : Bool) : Except PErr Control :=
  let inner := trimPrefixCharGo '[' (trimSuffixChar ']' controlStr)
  match buildComplex (goFields inner) [] with
  | .error e => .error e
  | .ok m => .ok { simple := none, complex := some m, optional := opt }

/-- The controlPattern regexp of parser.go, `[` then one or more
non-`]` characters then `]`, anchored at both ends. -/
def matchesControlPattern (s : Str) : Bool :=
  s.head? == some '[' && s.tail.getLast? == some ']' &&
    !s.tail.dropLast.isEmpty && !s.tail.dropLast.contains ']'

/-- parseControl of parser.go. -/
def parseControl (controlStr : Str) : Except PErr Control :=
  let opt := controlStr.head? == some '-'
  let s := if opt then controlStr.tail else controlStr
  if matchesControlPattern s then parseComplexControl s opt
  else if IsValidControlType s then
    .ok { simple := some (toLowerStr s), complex := none, optional := opt }
  else .error .invalidControlType

/-! ## Rules, configurations, parseLine and ParseWithService (parser.go) -/

/-- The Rule struct of parser.go: one PAM rule or directive. -/
structure Rule where
  service : Str := []
  type : Str := []
  control : Control := {}
  modulePath : Str := []
  comment : Str := []
  directiveType : Str := []
  directiveTarget : Str := []
  arguments : List Str := []
  lineNumber : Nat := 0
  continuation : Bool := false
  isDirective : Bool := false
deriving DecidableEq

instance : Inhabited Rule := ⟨{}⟩

/-- The Config struct of parser.go (FilePath omitted: no claim concerns it). -/
structure Config where
  rules : List Rule := []
  comments : List Str := []
  isPamD : Bool := false
deriving DecidableEq

/-- What parseLine reports for one line: nothing, a standalone comment,
or a rule. -/
inductive LineResult
  | empty
  | comment (c : Str)
  | rule (r : Rule)
deriving DecidableEq

/-- The inline-comment scan of parseLine: cut the token list at the first
token starting with `#` and keep that token's trimmed tail as the comment. -/
def splitComment : List Str → List Str × Str
  | [] => ([], [])
  | t :: rest =>
    if t.head? == some '#' then ([], trimSpaceGo t.tail)
    else
      let (ts, c) := splitComment rest
      (t :: ts, c)

/-- parseDirective of parser.go. -/
def parseDirective (tokens : List Str) (rule : Rule) : Except PErr Rule :=
  match tokens with
  | [] => .error .emptyDirective
  | t0 :: rest =>
    if t0.head? == some '@' then
      let dType := t0.tail
      let rule1 := { rule with isDirective := true, directiveType := dType }
      if dType = "include".data then
        match rest with
        | [] => .error .missingDirectiveTarget
        | tgt :: args =>
          .ok { rule1 with directiveTarget := tgt,
                           arguments := if args.isEmpty then rule1.arguments else args }
      else .error .unknownDirective
    else .error .notDirective

/-- The service/type/control/module/arguments sequence of parseLine. -/
def parseRuleTokens (isPamD : Bool) (toks : List Str) (rule : Rule) : Except PErr Rule :=
  let svcStep : Except PErr (Rule × List Str) :=
    if isPamD then .ok (rule, toks)
    else
      match toks with
      | [] => .error .missingService
      | s :: rest => .ok ({ rule with service := s }, rest)
  match svcStep with
  | .error e => .error e
  | .ok (r1, ts1) =>
    match ts1 with
    | [] => .error .missingType
    | ty :: ts2 =>
      if !IsValidModuleType ty then .error .invalidModuleType
      else
        let r2 := { r1 with type := toLowerStr ty }
        match ts2 with
        | [] => .error .missingControl
        | ctl :: ts3 =>
          match parseControl ctl with
          | .error e => .error e
          | .ok c =>
            let r3 := { r2 with control := c }
            match ts3 with
            | [] => .error .missingModulePath
            | mp :: ts4 =>
              let r4 := { r3 with modulePath := mp }
              .ok (if ts4.isEmpty then r4
                   else { r4 with arguments := parseArguments (joinSpace ts4) })

/-- parseLine of parser.go. -/
def parseLine (line : Str) (lineNum : Nat) (isPamD : Bool) (serviceName : Str) :
    Except PErr LineResult :=
  let originalLine := line
  let line1 := trimRightCut line
  let continuation := line1.getLast? == some '\\'
  let line2 := if continuation then line1.dropLast else line1
  let afterWs := originalLine.dropWhile isReSpace
  if afterWs.head? == some '#' then .ok (.comment (trimSpaceGo afterWs.tail))
  else if (trimSpaceGo line2).isEmpty then .ok .empty
  else
    let rule0 : Rule :=
      { lineNumber := lineNum, continuation := continuation,
        service := if isPamD && !serviceName.isEmpty then serviceName else [] }
    let tokens := tokenizeLine line2
    if tokens.isEmpty then .error .emptyRule
    else
      let (toks, commentTok) := splitComment tokens
      let rule1 := { rule0 with comment := commentTok }
      match toks with
      | [] => .error .emptyRule
      | t0 :: _ =>
        if t0.head? == some '@' then (parseDirective toks rule1).map .rule
        else (parseRuleTokens isPamD toks rule1).map .rule

/-- Appending one parseLine result to the configuration, as the bodies of
handleContinuation and ParseWithService both do. -/
def appendLineResult (cfg : Config) : LineResult → Config
  | .rule r => { cfg with rules := cfg.rules ++ [r] }
  | .comment c => if c.isEmpty then cfg else { cfg with comments := cfg.comments ++ [c] }
  | .empty => cfg

/-- handleContinuation of parser.go. It returns the updated configuration
and the updated accumulated line; the caller's currentRule pointer is not
an output because the Go function only assigns nil to its local copy. -/
def handleContinuation (currentRule : Rule) (currentLine : Str) (line : Str)
    (isPamD : Bool) (serviceName : Str) (cfg : Config) : Except PErr (Config × Str) :=
  let cur1 := currentLine ++ ' ' :: trimSpaceGo line
  if (trimSpaceGo line).getLast? == some '\\' then .ok (cfg, cur1)
  else
    match parseLine cur1 currentRule.lineNumber isPamD serviceName with
    | .error e => .error e
    | .ok res => .ok (appendLineResult cfg res, [])

/-- The scanner loop of ParseWithService. The state is the 1-based line
number, the currentRule pointer and the currentLine builder. Once
currentRule is set it is never cleared (the nil assignment inside
handleContinuation is to a by-value parameter), so every later line keeps
going through handleContinuation. -/
def parseLinesAux (isPamD : Bool) (serviceName : Str) :
    List Str → Nat → Option Rule → Str → Config → Except PErr Config
  | [], _, _, _, cfg => .ok cfg
  | line :: rest, n, some cr, cur, cfg =>
    match handleContinuation cr cur line isPamD serviceName cfg with
    | .error e => .error e
    | .ok (cfg1, cur1) => parseLinesAux isPamD serviceName rest (n + 1) (some cr) cur1 cfg1
  | line :: rest, n, none, _, cfg =>
    match parseLine line n isPamD serviceName with
    | .error e => .error e
    | .ok (.rule r) =>
      if r.continuation then
        parseLinesAux isPamD serviceName rest (n + 1) (some r) line.dropLast cfg
      else
        parseLinesAux isPamD serviceName rest (n + 1) none []
          { cfg with rules := cfg.rules ++ [r] }
    | .ok (.comment c) =>
      parseLinesAux isPamD serviceName rest (n + 1) none []
        (if c.isEmpty then cfg else { cfg with comments := cfg.comments ++ [c] })
    | .ok .empty => parseLinesAux isPamD serviceName rest (n + 1) none [] cfg

/-- ParseWithService of parser.go, over the already-split physical lines. -/
def ParseWithService (lines : List Str) (isPamD : Bool) (serviceName : Str) :
    Except PErr Config :=
  parseLinesAux isPamD serviceName lines 1 none []
    { rules := [], comments := [], isPamD := isPamD }

/-! ## Editor operations (editor.go), as functions on the rule sequence.

Each Go method mutates e.config.Rules in place and returns an error; here an
operation takes the sequence and returns the (possibly unchanged) sequence
together with an optional error. Indices are Go ints, so they are Int here
and the negative checks are kept. -/

/-- The append-grow-copy-shift insertion of editor.go, for n ≤ length. -/
def insertAt {α : Type} (n : Nat) (a : α) (l : List α) : List α :=
  l.take n ++ a :: l.drop n

/-- The downward scan of findInsertPosition: the argument is one past the
index to examine next, so `i + 1` examines index i. -/
def fipLoop (rules : List Rule) (target : Nat) : Nat → Nat
  | 0 => 0
  | i + 1 =>
    if GetModuleTypeOrder (rules.getD i default).type ≤ target then i + 1
    else fipLoop rules target i

/-- findInsertPosition of editor.go. -/
def findInsertPosition (rules : List Rule) (moduleType : Str) : Nat :=
  fipLoop rules (GetModuleTypeOrder moduleType) rules.length

/-- AddRule of editor.go. -/
def AddRule (rules : List Rule) (rule : Rule) : List Rule :=
  if rule.isDirective then rules ++ [rule]
  else insertAt (findInsertPosition rules rule.type) rule rules

/-- GetRule of editor.go: an explicit copy of the rule at the index. The
struct literal lists only the non-directive fields, so IsDirective,
DirectiveType and DirectiveTarget take their zero values in the copy. -/
def GetRule (rules : List Rule) (index : Int) : Except PErr Rule :=
  if index < 0 ∨ (rules.length : Int) ≤ index then .error .indexOutOfRange
  else
    let r := rules.getD index.toNat default
    .ok { service := r.service, type := r.type, control := r.control,
          modulePath := r.modulePath, arguments := r.arguments, comment := r.comment,
          lineNumber := r.lineNumber, continuation := r.continuation }

/-- InsertRule of editor.go (index = length appends). -/
def InsertRule (rules : List Rule) (index : Int) (rule : Rule) : Option PErr × List Rule :=
  if index < 0 ∨ (rules.length : Int) < index then (some .indexOutOfRange, rules)
  else (none, insertAt index.toNat rule rules)

/-- InsertRuleBefore of editor.go: insert before the first match. -/
def InsertRuleBefore (rules : List Rule) (rule : Rule) (filter : Rule → Bool) :
    Option PErr × List Rule :=
  match rules.findIdx? filter with
  | some i => InsertRule rules (i : Int) rule
  | none => (some .noMatch, rules)

/-- The lastMatchIndex loop of InsertRuleAfter. -/
def lastMatchIdx (filter : Rule → Bool) : List Rule → Nat → Option Nat → Option Nat
  | [], _, acc => acc
  | r :: rest, i, acc => lastMatchIdx filter rest (i + 1) (if filter r then some i else acc)

/-- InsertRuleAfter of editor.go: insert after the last match. -/
def InsertRuleAfter (rules : List Rule) (rule : Rule) (filter : Rule → Bool) :
    Option PErr × List Rule :=
  match lastMatchIdx filter rules 0 none with
  | some i => InsertRule rules ((i : Int) + 1) rule
  | none => (some .noMatch, rules)

/-- UpdateRule of editor.go. -/
def UpdateRule (rules : List Rule) (index : Int) (rule : Rule) : Option PErr × List Rule :=
  if index < 0 ∨ (rules.length : Int) ≤ index then (some .indexOutOfRange, rules)
  else (none, rules.set index.toNat rule)

/-- RemoveRule of editor.go. -/
def RemoveRule (rules : List Rule) (index : Int) : Option PErr × List Rule :=
  if index < 0 ∨ (rules.length : Int) ≤ index then (some .indexOutOfRange, rules)
  else (none, rules.eraseIdx index.toNat)

/-- MoveRule of editor.go: bounds checks, no-op on equal indices, then
remove, adjust the target index and insert. -/
def MoveRule (rules : List Rule) (fromIndex toIndex : Int) : Option PErr × List Rule :=
  if fromIndex < 0 ∨ (rules.length : Int) ≤ fromIndex then (some .indexOutOfRange, rules)
  else if toIndex < 0 ∨ (rules.length : Int) ≤ toIndex then (some .indexOutOfRange, rules)
  else if fromIndex = toIndex then (none, rules)
  else
    let rule := rules.getD fromIndex.toNat default
    let removed := rules.eraseIdx fromIndex.toNat
    let to1 := if fromIndex < toIndex then toIndex - 1 else toIndex
    (none, insertAt to1.toNat rule removed)

/-! ## The writer (writer.go) -/

/-- The Writer struct of writer.go with its NewWriter defaults.
ContinuationIndent is a Nat because it only feeds strings.Repeat, which
panics on a negative count. -/
structure Writer where
  maxLineLength : Int := 100
  continuationIndent : Nat := 4
  prettyFormat : Bool := false
  typeColumnWidth : Int := 8
  controlColumnWidth : Int := 12
  moduleColumnWidth : Int := 20
deriving DecidableEq

/-- Byte-wise (here: code-point-wise) string comparison, as sort.Strings
orders ASCII keys. -/
def lexLtStr : Str → Str → Bool
  | [], [] => false
  | [], _ :: _ => true
  | _ :: _, [] => false
  | a :: as, b :: bs =>
    if a.toNat < b.toNat then true
    else if b.toNat < a.toNat then false
    else lexLtStr as bs

def insortStr (x : Str) : List Str → List Str
  | [] => [x]
  | y :: ys => if lexLtStr y x then y :: insortStr x ys else x :: y :: ys

/-- sort.Strings. -/
def sortStrs (l : List Str) : List Str := l.foldr insortStr []

/-- The map read `control.Complex[ReturnValue(key)]`. -/
def lookupCtrl (k : Str) : List (Str × CtrlVal) → Option CtrlVal
  | [] => none
  | (k', v) :: rest => if k' = k then some v else lookupCtrl k rest

/-- strconv.Itoa. -/
def intToStr (i : Int) : Str :=
  if i < 0 then '-' :: Nat.toDigits 10 (-i).toNat else Nat.toDigits 10 i.toNat

/-- How formatControl renders a complex value. -/
def ctrlValStr : CtrlVal → Str
  | .jump n => intToStr n
  | .action a => a

/-- formatControl of writer.go: optional dash, then the simple keyword, or
the complex pairs with lexicographically sorted keys, or the dash alone
when neither field is set. -/
def formatControl (c : Control) : Str :=
  let dash : Str := if c.optional then ['-'] else []
  match c.simple with
  | some s => dash ++ s
  | none =>
    match c.complex with
    | some m =>
      let keys := sortStrs (m.map (·.1))
      let pairs := keys.map fun k => k ++ '=' :: ((lookupCtrl k m).map ctrlValStr).getD []
      dash ++ '[' :: (joinSpace pairs ++ [']'])
    | none => dash

/-- The padding computation of formatPrettyRule: column width minus field
length, at least 1. -/
def padW (width : Int) (len : Nat) : Nat :=
  let p := width - (len : Int)
  if p < 1 then 1 else p.toNat

/-- formatPrettyRule of writer.go. -/
def formatPrettyRule (w : Writer) (typeStr controlStr modulePath : Str)
    (arguments : List Str) : Str :=
  let typePad := padW w.typeColumnWidth typeStr.length
  let controlPad := padW w.controlColumnWidth controlStr.length
  let modulePad := padW w.moduleColumnWidth modulePath.length
  let line := typeStr ++ List.replicate typePad ' ' ++ controlStr ++
    List.replicate controlPad ' ' ++ modulePath
  if arguments.isEmpty then line
  else line ++ List.replicate modulePad ' ' ++ formatArguments arguments

/-- formatRule of writer.go. -/
def formatRule (w : Writer) (rule : Rule) : Str :=
  if rule.isDirective then
    let line := '@' :: (rule.directiveType ++ ' ' :: rule.directiveTarget)
    let line1 := if rule.arguments.isEmpty then line
                 else line ++ ' ' :: formatArguments rule.arguments
    if rule.comment.isEmpty then line1 else line1 ++ " # ".data ++ rule.comment
  else
    let typeStr := rule.type
    let controlStr := formatControl rule.control
    let parts := (if rule.service.isEmpty then [] else [rule.service]) ++
      [typeStr, controlStr, rule.modulePath] ++
      (if rule.arguments.isEmpty then [] else [formatArguments rule.arguments])
    let line := if w.prettyFormat && rule.service.isEmpty then
                  formatPrettyRule w typeStr controlStr rule.modulePath rule.arguments
                else joinSpace parts
    if rule.comment.isEmpty then line else line ++ " # ".data ++ rule.comment

/-- The backward space search of handleLineContinuation: the greatest index
i with maxLineLength/2 < i ≤ maxLineLength-1 and remaining[i] = ' '. The
Nat argument counts down; `i + 1` examines index i + 1, as the Go loop
running from maxLineLength-1 down to maxLineLength/2+1 does. -/
def findBreakAux (rem : Str) (lo : Nat) : Nat → Option Nat
  | 0 => none
  | i + 1 =>
    if i + 1 ≤ lo then none
    else if rem.getD (i + 1) '\x00' = ' ' then some (i + 1)
    else findBreakAux rem lo i

/-- One iteration of the folding loop of handleLineContinuation: cut at the
break point, append the continuation marker, indent the rest. -/
def hlcStep (w : Writer) (remaining : Str) : Str × Str :=
  let m := w.maxLineLength.toNat
  let breakPoint := (findBreakAux remaining (m / 2) (m - 1)).getD m
  let currentLine := trimSpaceGo (remaining.take breakPoint) ++ [' ', '\\']
  let t := trimSpaceGo (remaining.drop breakPoint)
  (currentLine, if t.isEmpty then [] else List.replicate w.continuationIndent ' ' ++ t)

/-- The lines emitted after the loop: the leftover text when non-empty. -/
def hlcFinal (remaining : Str) : List Str :=
  if remaining.isEmpty then [] else [remaining]

/-- The folding loop, with explicit fuel standing in for the unbounded Go
for-loop; none means the loop was still running when the fuel ran out. -/
def hlcLoop (w : Writer) : Nat → Str → Option (List Str)
  | 0, remaining =>
    if (remaining.length : Int) ≤ w.maxLineLength then some (hlcFinal remaining) else none
  | fuel + 1, remaining =>
    if (remaining.length : Int) ≤ w.maxLineLength then some (hlcFinal remaining)
    else
      let s := hlcStep w remaining
      (hlcLoop w fuel s.2).map (s.1 :: ·)

/-- handleLineContinuation of writer.go, fuelled. -/
def handleLineContinuationF (w : Writer) (fuel : Nat) (line : Str) : Option (List Str) :=
  if w.maxLineLength ≤ 0 ∨ (line.length : Int) ≤ w.maxLineLength then some [line]
  else hlcLoop w fuel line

/-- The key a rule is grouped under in sortRulesByType. -/
def groupKey (r : Rule) : Str := GetNormalizedModuleType r.type

/-- `typeGroups[k] = append(typeGroups[k], r)` on the association list that
stands for the Go map: extend the group of key k or create it at the end. -/
def groupInsert : List (Str × List Rule) → Str → Rule → List (Str × List Rule)
  | [], k, r => [(k, [r])]
  | (k', v) :: rest, k, r =>
    if k' = k then (k', v ++ [r]) :: rest else (k', v) :: groupInsert rest k r

def buildGroups (rules : List Rule) : List (Str × List Rule) :=
  rules.foldl (fun g r => groupInsert g (groupKey r) r) []

def lookupGroup (k : Str) : List (Str × List Rule) → Option (List Rule)
  | [] => none
  | (k', v) :: rest => if k' = k then some v else lookupGroup k rest

/-- The writer's fixed typeOrder slice. Note that session-noninteractive is
absent from it (contrast the editor's SortRulesByType in editor.go, whose
slice has five entries). -/
def writerTypeOrder : List Str :=
  ["account".data, "auth".data, "password".data, "session".data]

/-- sortRulesByType of writer.go. Go iterates the typeGroups map with
`range`, whose order is unspecified; the model fixes that loop to the
association list's first-insertion order. -/
def sortRulesByType (rules : List Rule) : List Rule :=
  let directives := rules.filter (·.isDirective)
  let regularRules := rules.filter fun r => !r.isDirective
  let typeGroups := buildGroups regularRules
  let known := writerTypeOrder.foldl (fun acc t =>
    match lookupGroup t typeGroups with
    | some rs => acc ++ rs
    | none => acc) []
  let unknown := typeGroups.foldl (fun acc g =>
    if writerTypeOrder.contains g.1 then acc else acc ++ g.2) []
  known ++ unknown ++ directives

/-- strings.HasPrefix(line, "#"). -/
def startsWithHash (l : Str) : Bool := l.head? == some '#'

/-- The section bookkeeping at the top of Write's rule loop: for a
non-directive rule of a new normalized type, add a blank line unless the
previous line starts with `#`, and remember the new current type. -/
def sectionStep (lines : List Str) (curType : Str) (r : Rule) : List Str × Str :=
  if r.isDirective then (lines, curType)
  else
    let nt := GetNormalizedModuleType r.type
    if nt ≠ curType then
      (if !lines.isEmpty && !startsWithHash (lines.getLastD []) then lines ++ [[]]
       else lines, nt)
    else (lines, curType)

/-- The rule loop of Write: `lines` is the accumulated output, `curType`
the currentNormalizedType. Every rendered line passes through
handleLineContinuationF with the given fuel. -/
def writeRuleLines (w : Writer) (fuel : Nat) :
    List Rule → List Str → Str → Option (List Str)
  | [], lines, _ => some lines
  | r :: rest, lines, curType =>
    match handleLineContinuationF w fuel (formatRule w r) with
    | none => none
    | some rl =>
      writeRuleLines w fuel rest ((sectionStep lines curType r).1 ++ rl)
        (sectionStep lines curType r).2

/-- Write of writer.go as the list of output lines: sort a copy of the
rules, emit the standalone comments first, then the rule loop. -/
def writeLines (w : Writer) (fuel : Nat) (cfg : Config) : Option (List Str) :=
  let sortedRules := sortRulesByType cfg.rules
  let commentLines := cfg.comments.map (fun c => "# ".data ++ c)
  writeRuleLines w fuel sortedRules commentLines []

/-! ## Sample rules, configurations and writers for the concrete evaluations -/

def ruleZZZ : Rule := { type := "zzz".data, modulePath := "pam_z.so".data }

def ruleSNI : Rule :=
  { type := "session-noninteractive".data, modulePath := "pam_sd.so".data }

def ruleAcc : Rule := { type := "account".data, modulePath := "pam_a.so".data }

def ruleAuth : Rule := { type := "auth".data, modulePath := "pam_n.so".data }

def ruleSess : Rule := { type := "session".data, modulePath := "pam_s.so".data }

def sampleDirective : Rule :=
  { isDirective := true, directiveType := "include".data,
    directiveTarget := "common-auth".data, comment := "Auth".data,
    arguments := ["x".data], lineNumber := 7, continuation := true,
    service := "sshd".data }

def hlcCexWriter : Writer := { maxLineLength := 4, continuationIndent := 10 }

def hlcCexRem : Str := "          ef".data

def cfgW10 : Config :=
  { rules := [{ type := "auth".data, control := { simple := some "required".data },
                modulePath := "pam_unix.so".data }],
    comments := ["one".data, "two".data], isPamD := true }

/-! ## C5: the continuation state machine never returns to Normal -/

/-- C5: the code at the failing input. Physical lines 1-2 fold into one
logical rule; the parser should then return to the Normal state, but the
nil assignment in handleContinuation only changes a by-value parameter, so
the rule on physical line 3 is parsed through handleContinuation and
records the stale origin line number 1 instead of 3. -/
theorem parseWithService_lineNumber_bug :
    (ParseWithService
        ["auth required pam_a.so one \\".data, "two".data, "auth required pam_b.so".data]
        true []).map (fun c => c.rules.map fun r => (r.modulePath, r.lineNumber))
      = .ok [("pam_a.so".data, 1), ("pam_b.so".data, 1)] := by decide

/-! ## C3: which complex control pairs are rejected -/

/-- Whether a parse attempt returned an error. -/
def exceptFailed {ε α : Type} : Except ε α → Bool
  | .ok _ => false
  | .error _ => true

/-- The pair loop errors exactly when some pair has no `=` at all. -/
theorem buildComplex_failed (pairs : List Str) :
    ∀ acc, exceptFailed (buildComplex pairs acc) = true ↔ ∃ p ∈ pairs, '=' ∉ p := by
  induction pairs with
  | nil => intro acc; simp [buildComplex, exceptFailed]
  | cons p rest ih =>
    intro acc
    by_cases hp : '=' ∈ p
    · have hpc : p.contains '=' = true := by simpa using hp
      simp only [buildComplex, parsePair, hpc, if_true]
      cases hsv : sscanfInt ((p.dropWhile (· != '=')).tail) <;> simp [ih, hp]
    · have hpc : p.contains '=' = false := by simpa using hp
      simp only [buildComplex, parsePair, hpc, Bool.false_eq_true, if_false]
      simp [exceptFailed, hp]

/-- C3 counterexample: the complex control token `[a=b=c]` has a pair with
two `=` characters, yet parseControl accepts it, splitting at the first `=`
and keeping `b=c` as the action. -/
theorem parseControl_multi_equals_cex :
    parseControl "[a=b=c]".data
      = .ok { simple := none, complex := some [("a".data, .action "b=c".data)],
              optional := false } := by decide

/-- The complex-control parser errors exactly when its pair loop does. -/
theorem parseComplexControl_failed (s : Str) (opt : Bool) :
    exceptFailed (parseComplexControl s opt)
      = exceptFailed (buildComplex (goFields (trimPrefixCharGo '[' (trimSuffixChar ']' s))) []) := by
  simp only [parseComplexControl]
  cases buildComplex (goFields (trimPrefixCharGo '[' (trimSuffixChar ']' s))) [] <;> rfl

/-- C3 (amended): a complex (bracketed) control token fails with the
malformed-control error if and only if some whitespace-separated pair of
its interior contains no `=` character at all; a pair with two or more `=`
is accepted, its value being everything after the first `=`. -/
theorem parseControl_complex_fails_iff (s : Str) (h : matchesControlPattern s = true) :
    exceptFailed (parseControl s) = true ↔
      ∃ p ∈ goFields (trimPrefixCharGo '[' (trimSuffixChar ']' s)), '=' ∉ p := by
  have h1 : s.head? = some '[' := by
    have hx := h
    unfold matchesControlPattern at hx
    simp only [Bool.and_eq_true, beq_iff_eq] at hx
    exact hx.1.1.1
  have hopt : (s.head? == some '-') = false := by rw [h1]; decide
  have e1 : parseControl s = parseComplexControl s false := by
    simp only [parseControl, hopt, Bool.false_eq_true, if_false, h, if_true]
  rw [e1, parseComplexControl_failed, buildComplex_failed]

/-- C3 witness: `[a=b c]` matches the complex pattern, and the iff holds
there with both sides true: the pair `c` has no `=` and parsing fails. -/
theorem parseControl_complex_fails_iff_witness :
    matchesControlPattern "[a=b c]".data = true ∧
      (exceptFailed (parseControl "[a=b c]".data) = true ↔
        ∃ p ∈ goFields (trimPrefixCharGo '[' (trimSuffixChar ']' "[a=b c]".data)), '=' ∉ p) :=
  ⟨by decide, parseControl_complex_fails_iff "[a=b c]".data (by decide)⟩

/-! ## C2: an escaped `]` and the tokenizer -/

/-- Inside an open bracket span, every character other than `]` is simply
accumulated. -/
theorem tokenizeAux_brackets_append :
    ∀ (pre : Str), ']' ∉ pre → ∀ cur rest,
      tokenizeAux true cur (pre ++ rest) = tokenizeAux true (cur ++ pre) rest := by
  intro pre
  induction pre with
  | nil => intro _ cur rest; simp
  | cons c pre' ih =>
    intro h cur rest
    have hc : c ≠ ']' := fun hh => h (by simp [hh])
    have h' : ']' ∉ pre' := fun hm => h (by simp [hm])
    rw [List.cons_append]
    simp only [tokenizeAux]
    split_ifs with h1 h2 h3 <;>
      first
        | exact absurd (by assumption) hc
        | simpa using ih h' (cur ++ [c]) rest

/-- C2 counterexample: tokenizing `[a\]b]`, the escaped `]` closes the
bracketed token; the output is not the single token the claim predicts. -/
theorem tokenizeLine_escaped_close_cex :
    tokenizeLine "[a\\]b]".data = ["[a\\]".data, "b]".data] ∧
      tokenizeLine "[a\\]b]".data ≠ ["[a\\]b]".data] := by decide

/-- C2 (amended): during tokenization a `]` inside an open bracket span
always closes the span, even when preceded by a backslash: the bracketed
token ends at the first `]`, whatever comes before it. (Backslash escapes
are honoured one layer up, in parseArguments, not in the tokenizer.) -/
theorem tokenizeLine_closes_at_escaped_bracket (pre post : Str) (h : ']' ∉ pre) :
    tokenizeLine ('[' :: (pre ++ '\\' :: ']' :: post))
      = ('[' :: (pre ++ ['\\', ']'])) :: tokenizeLine post := by
  unfold tokenizeLine
  have s1 : tokenizeAux false [] ('[' :: (pre ++ '\\' :: ']' :: post))
      = tokenizeAux true ['['] (pre ++ '\\' :: ']' :: post) := by
    simp [tokenizeAux]
  have s2 : tokenizeAux true ('[' :: pre) ('\\' :: ']' :: post)
      = tokenizeAux true (('[' :: pre) ++ ['\\']) (']' :: post) := by
    simp only [tokenizeAux]
    rw [if_neg (by decide), if_neg (by decide), if_neg (by decide), if_neg (by decide)]
  have s3 : tokenizeAux true (('[' :: pre) ++ ['\\']) (']' :: post)
      = ((('[' :: pre) ++ ['\\']) ++ [']']) :: tokenizeAux false [] post := by
    simp [tokenizeAux]
  rw [s1, tokenizeAux_brackets_append pre h ['['] _]
  simp only [List.singleton_append]
  rw [s2, s3]
  simp

/-- C2 witness: an escaped `]` with preceding bracket-free text `ab`
closes the span, producing the token `[ab\]` and rescanning the rest. -/
theorem tokenizeLine_closes_at_escaped_bracket_witness :
    (']' ∉ "ab".data) ∧
      tokenizeLine ('[' :: ("ab".data ++ '\\' :: ']' :: " c".data))
        = ('[' :: ("ab".data ++ ['\\', ']'])) :: tokenizeLine " c".data :=
  ⟨by decide, tokenizeLine_closes_at_escaped_bracket "ab".data " c".data (by decide)⟩

/-! ## C6: the insertion position of AddRule -/

/-- The downward scan examined through its first n indices equals the
length of that prefix minus its maximal tail run of entries of strictly
greater order. -/
theorem fipLoop_eq_length_sub (rules : List Rule) (t : Nat) :
    ∀ n, n ≤ rules.length →
      fipLoop rules t n =
        n - ((rules.take n).reverse.takeWhile fun x =>
          decide (t < GetModuleTypeOrder x.type)).length := by
  intro n
  induction n with
  | zero => intro _; simp [fipLoop]
  | succ m ih =>
    intro hle
    have hm : m < rules.length := Nat.lt_of_succ_le hle
    have htake : (rules.take (m + 1)).reverse
        = rules.get ⟨m, hm⟩ :: (rules.take m).reverse := by
      rw [List.take_succ]
      simp [List.reverse_append, List.getElem?_eq_getElem hm, List.get_eq_getElem]
    have hgd : rules.getD m default = rules.get ⟨m, hm⟩ := by
      simp [List.getD_eq_getElem?_getD, List.getElem?_eq_getElem hm, List.get_eq_getElem]
    simp only [fipLoop, hgd, htake, List.takeWhile_cons]
    by_cases hord : GetModuleTypeOrder (rules.get ⟨m, hm⟩).type ≤ t
    · rw [if_pos hord, if_neg (by simpa [List.get_eq_getElem] using Nat.not_lt.mpr hord)]
      simp
    · rw [if_neg hord, if_pos (by simpa [List.get_eq_getElem] using Nat.lt_of_not_le hord)]
      have hlen : ((rules.take m).reverse.takeWhile fun x =>
          decide (t < GetModuleTypeOrder x.type)).length ≤ m := by
        calc ((rules.take m).reverse.takeWhile fun x =>
                decide (t < GetModuleTypeOrder x.type)).length
            ≤ (rules.take m).reverse.length :=
              (List.takeWhile_sublist _).length_le
          _ ≤ m := by simp [List.length_take]
      rw [ih (Nat.le_of_lt hm)]
      simp only [List.length_cons]
      omega

/-- findInsertPosition is the sequence length minus the maximal tail run of
entries whose category order strictly exceeds the target order. -/
theorem findInsertPosition_spec (rules : List Rule) (mt : Str) :
    findInsertPosition rules mt =
      rules.length -
        (rules.reverse.takeWhile fun x =>
          decide (GetModuleTypeOrder mt < GetModuleTypeOrder x.type)).length := by
  unfold findInsertPosition
  rw [fipLoop_eq_length_sub rules _ rules.length le_rfl, List.take_length]

/-- C6: AddRule inserts a non-directive rule immediately after the last
entry, scanning from the tail, whose category order is at most the new
rule's order — equivalently, just before the maximal tail run of entries
of strictly greater order — and at index 0 when no entry qualifies; in
particular an auth rule added to a configuration of one account and one
session rule lands strictly between them. -/
theorem addRule_insert_position :
    (∀ (rules : List Rule) (r : Rule), r.isDirective = false →
      AddRule rules r =
        insertAt
          (rules.length -
            (rules.reverse.takeWhile fun x =>
              decide (GetModuleTypeOrder r.type < GetModuleTypeOrder x.type)).length)
          r rules) ∧
    AddRule [ruleAcc, ruleSess] ruleAuth = [ruleAcc, ruleAuth, ruleSess] := by
  constructor
  · intro rules r hd
    unfold AddRule
    rw [if_neg (by simp [hd]), findInsertPosition_spec]
  · decide

/-! ## C7: failed editor operations do not change the sequence -/

/-- InsertRule reports an error only on the unchanged sequence. -/
theorem insertRule_err_frame (rules : List Rule) (i : Int) (r : Rule) :
    (InsertRule rules i r).1.isSome = true → (InsertRule rules i r).2 = rules := by
  unfold InsertRule
  split_ifs <;> simp

/-- C7: every editor operation that returns an error — an out-of-range
index for InsertRule, RemoveRule, UpdateRule or MoveRule, or a predicate
with no matching entry for InsertRuleBefore or InsertRuleAfter — leaves
the rule sequence exactly as it was. -/
theorem editor_errors_frame :
    (∀ (rules : List Rule) (i : Int) (r : Rule),
      (InsertRule rules i r).1.isSome = true → (InsertRule rules i r).2 = rules) ∧
    (∀ (rules : List Rule) (i : Int),
      (RemoveRule rules i).1.isSome = true → (RemoveRule rules i).2 = rules) ∧
    (∀ (rules : List Rule) (i : Int) (r : Rule),
      (UpdateRule rules i r).1.isSome = true → (UpdateRule rules i r).2 = rules) ∧
    (∀ (rules : List Rule) (i j : Int),
      (MoveRule rules i j).1.isSome = true → (MoveRule rules i j).2 = rules) ∧
    (∀ (rules : List Rule) (r : Rule) (f : Rule → Bool),
      (InsertRuleBefore rules r f).1.isSome = true →
        (InsertRuleBefore rules r f).2 = rules) ∧
    (∀ (rules : List Rule) (r : Rule) (f : Rule → Bool),
      (InsertRuleAfter rules r f).1.isSome = true →
        (InsertRuleAfter rules r f).2 = rules) := by
  refine ⟨insertRule_err_frame, ?_, ?_, ?_, ?_, ?_⟩
  · intro rules i
    unfold RemoveRule
    split_ifs <;> simp
  · intro rules i r
    unfold UpdateRule
    split_ifs <;> simp
  · intro rules i j
    unfold MoveRule
    split_ifs <;> simp
  · intro rules r f
    unfold InsertRuleBefore
    cases rules.findIdx? f with
    | some i => exact insertRule_err_frame rules (i : Int) r
    | none => simp
  · intro rules r f
    unfold InsertRuleAfter
    cases lastMatchIdx f rules 0 none with
    | some i => exact insertRule_err_frame rules ((i : Int) + 1) r
    | none => simp

/-! ## C9: GetRule copies the rule fields and zeroes the directive fields -/

/-- C9: at an in-range index, GetRule returns a copy whose rule fields
(service, type, control, module path, arguments, comment, line number,
continuation) equal the stored entry's, while the directive fields are
never copied: the copy has IsDirective false and empty DirectiveType and
DirectiveTarget whatever the stored entry holds there. -/
theorem getRule_copy (rules : List Rule) (i : Int) (h0 : 0 ≤ i)
    (h1 : i.toNat < rules.length) :
    GetRule rules i =
      .ok { service := (rules.get ⟨i.toNat, h1⟩).service,
            type := (rules.get ⟨i.toNat, h1⟩).type,
            control := (rules.get ⟨i.toNat, h1⟩).control,
            modulePath := (rules.get ⟨i.toNat, h1⟩).modulePath,
            arguments := (rules.get ⟨i.toNat, h1⟩).arguments,
            comment := (rules.get ⟨i.toNat, h1⟩).comment,
            lineNumber := (rules.get ⟨i.toNat, h1⟩).lineNumber,
            continuation := (rules.get ⟨i.toNat, h1⟩).continuation,
            directiveType := [], directiveTarget := [], isDirective := false } := by
  have hcond : ¬(i < 0 ∨ (rules.length : Int) ≤ i) := by
    push_neg
    omega
  unfold GetRule
  rw [if_neg hcond]
  have hgd : rules.getD i.toNat default = rules.get ⟨i.toNat, h1⟩ := by
    simp [List.getD_eq_getElem?_getD, List.getElem?_eq_getElem h1, List.get_eq_getElem]
  rw [hgd]

/-- C9 witness: reading the sample include directive through GetRule drops
IsDirective, DirectiveType and DirectiveTarget but keeps every rule field. -/
theorem getRule_copy_witness :
    GetRule [sampleDirective] 0 =
      .ok { service := "sshd".data, type := [], control := {}, modulePath := [],
            arguments := ["x".data], comment := "Auth".data, lineNumber := 7,
            continuation := true, directiveType := [], directiveTarget := [],
            isDirective := false } :=
  (getRule_copy [sampleDirective] 0 (by decide) (by decide)).trans (by decide)

/-! ## C1: the argument escaping round trip -/

/-- ReplaceAll is the identity on text without a backslash. -/
theorem replaceEsc_no_bs (t : Char) :
    ∀ l : Str, '\\' ∉ l → replaceEsc t l = l
  | [], _ => rfl
  | [_], _ => rfl
  | c :: c2 :: rest, h => by
    have hc : c ≠ '\\' := fun hh => h (by simp [hh])
    have h' : '\\' ∉ c2 :: rest := fun hm => h (by simp [List.mem_cons] at hm ⊢; tauto)
    simp only [replaceEsc]
    rw [if_neg (by tauto)]
    rw [replaceEsc_no_bs t (c2 :: rest) h']

/-- Escaping never produces the empty string from a non-empty one. -/
theorem escapeCloseBracket_eq_nil {arg : Str} :
    escapeCloseBracket arg = [] ↔ arg = [] := by
  cases arg with
  | nil => simp [escapeCloseBracket]
  | cons c rest =>
    simp only [escapeCloseBracket]
    split_ifs <;> simp

/-- Undoing the `]` escaping recovers a backslash-free argument. -/
theorem replaceEsc_escape :
    ∀ arg : Str, '\\' ∉ arg → replaceEsc ']' (escapeCloseBracket arg) = arg := by
  intro arg
  induction arg with
  | nil => intro _; rfl
  | cons c rest ih =>
    intro h
    have hc : c ≠ '\\' := fun hh => h (by simp [hh])
    have h' : '\\' ∉ rest := fun hm => h (by simp [List.mem_cons]; tauto)
    by_cases hcb : c = ']'
    · subst hcb
      have he : escapeCloseBracket (']' :: rest) = '\\' :: ']' :: escapeCloseBracket rest := by
        simp [escapeCloseBracket]
      rw [he]
      simp only [replaceEsc]
      rw [if_pos (by simp), ih h']
    · have he : escapeCloseBracket (c :: rest) = c :: escapeCloseBracket rest := by
        simp [escapeCloseBracket, hcb]
      rw [he]
      cases hrest : escapeCloseBracket rest with
      | nil =>
        have : rest = [] := escapeCloseBracket_eq_nil.mp hrest
        subst this
        rfl
      | cons d e2 =>
        simp only [replaceEsc]
        rw [if_neg (by tauto), ← hrest, ih h']

/-- Unescaping undoes the writer's escaping on arguments free of `[` and
backslash. -/
theorem unescapeArg_escape (arg : Str) (hbs : '\\' ∉ arg) :
    unescapeArg (escapeCloseBracket arg) = arg := by
  unfold unescapeArg
  rw [replaceEsc_escape arg hbs, replaceEsc_no_bs '[' arg hbs]

/-- Scanning the escaped argument inside a bracket span consumes it whole
and emits exactly the unescaped content when the span closes. -/
theorem parseArgsAux_brack_escape :
    ∀ arg : Str, '[' ∉ arg → '\\' ∉ arg → ∀ acc : Str,
      parseArgsAux (.brack 1 acc) (escapeCloseBracket arg ++ [']'])
        = [unescapeArg (acc.reverse ++ escapeCloseBracket arg)] := by
  intro arg
  induction arg with
  | nil =>
    intro _ _ acc
    simp [escapeCloseBracket, parseArgsAux]
  | cons c rest ih =>
    intro hlb hbs acc
    have hlb' : '[' ∉ rest := fun hm => hlb (by simp [List.mem_cons]; tauto)
    have hbs' : '\\' ∉ rest := fun hm => hbs (by simp [List.mem_cons]; tauto)
    by_cases hc : c = ']'
    · subst hc
      have he : escapeCloseBracket (']' :: rest)
          = '\\' :: ']' :: escapeCloseBracket rest := by
        simp [escapeCloseBracket]
      rw [he]
      have s1 : parseArgsAux (.brack 1 acc)
            ('\\' :: ']' :: (escapeCloseBracket rest ++ [']']))
          = parseArgsAux (.brack 1 (']' :: '\\' :: acc))
            (escapeCloseBracket rest ++ [']']) := by
        simp [parseArgsAux]
      rw [List.cons_append, List.cons_append, s1, ih hlb' hbs' (']' :: '\\' :: acc)]
      simp
    · have hc2 : c ≠ '[' := fun hh => hlb (by simp [hh])
      have hc3 : c ≠ '\\' := fun hh => hbs (by simp [hh])
      have he : escapeCloseBracket (c :: rest) = c :: escapeCloseBracket rest := by
        simp [escapeCloseBracket, hc]
      rw [he, List.cons_append]
      have s1 : parseArgsAux (.brack 1 acc) (c :: (escapeCloseBracket rest ++ [']']))
          = parseArgsAux (.brack 1 (c :: acc)) (escapeCloseBracket rest ++ [']']) := by
        simp only [parseArgsAux]
        rw [if_neg hc3, if_neg hc2, if_neg hc]
      rw [s1, ih hlb' hbs' (c :: acc)]
      simp

/-- A special argument is written as one bracketed token. -/
theorem formatArguments_single_special (arg : Str)
    (hsp : hasSpecialArgChar arg = true) :
    formatArguments [arg] = '[' :: (escapeCloseBracket arg ++ [']']) := by
  simp [formatArguments, joinSpace, hsp]

/-- The bracket-wrapped token is untouched by TrimSpace. -/
theorem trimSpaceGo_bracket_wrapped (xs : Str) :
    trimSpaceGo ('[' :: (xs ++ [']'])) = '[' :: (xs ++ [']']) := by
  have h1 : trimLeftGo ('[' :: (xs ++ [']'])) = '[' :: (xs ++ [']']) := by
    unfold trimLeftGo
    rw [List.dropWhile_cons, if_neg (by decide)]
  have h2 : trimRightGo ('[' :: (xs ++ [']'])) = '[' :: (xs ++ [']']) := by
    unfold trimRightGo
    rw [show ('[' :: (xs ++ [']'])).reverse = ']' :: (xs.reverse ++ ['[']) by simp]
    rw [List.dropWhile_cons, if_neg (by decide)]
    simp
  unfold trimSpaceGo
  rw [h1, h2]

/-- C1 counterexample: the writer wraps `[` as `[[]` without escaping the
inner `[`; the parser counts it as nested depth, never sees the span
close, silently drops it, and returns no argument at all. -/
theorem parseArguments_format_bracket_cex :
    parseArguments (formatArguments [['[']]) ≠ [['[']] := by decide

/-- C1 (amended): for every argument containing whitespace (space, tab or
newline) or `]`, and containing neither `[` nor a backslash, parsing the
writer's rendering of that single argument returns exactly that argument.
The two excluded characters genuinely break the round trip: the writer
does not escape `[`, and escaping a `]` that already follows a backslash
produces a sequence the parser's escape-skip misreads. -/
theorem parseArguments_formatArguments_roundtrip (arg : Str)
    (hsp : ∃ c ∈ arg, c = ' ' ∨ c = '\t' ∨ c = '\n' ∨ c = ']')
    (hlb : '[' ∉ arg) (hbs : '\\' ∉ arg) :
    parseArguments (formatArguments [arg]) = [arg] := by
  have hspb : hasSpecialArgChar arg = true := by
    obtain ⟨c, hm, hor⟩ := hsp
    unfold hasSpecialArgChar
    rw [List.any_eq_true]
    exact ⟨c, hm, by rcases hor with h | h | h | h <;> subst h <;> decide⟩
  rw [formatArguments_single_special arg hspb]
  unfold parseArguments
  rw [if_neg (by simp), trimSpaceGo_bracket_wrapped]
  have s1 : parseArgsAux .outside ('[' :: (escapeCloseBracket arg ++ [']']))
      = parseArgsAux (.brack 1 []) (escapeCloseBracket arg ++ [']']) := by
    simp [parseArgsAux]
  rw [s1, parseArgsAux_brack_escape arg hlb hbs []]
  simp [unescapeArg_escape arg hbs]

/-- C1 witness: the argument `a b` (a space, no bracket trouble) survives
the round trip. -/
theorem parseArguments_formatArguments_roundtrip_witness :
    parseArguments (formatArguments ["a b".data]) = ["a b".data] :=
  parseArguments_formatArguments_roundtrip "a b".data ⟨' ', by decide⟩
    (by decide) (by decide)

/-! ## C8: termination of the line-folding loop -/

/-- The backward search returns an index strictly above `lo` and at most
its starting point. -/
theorem findBreakAux_bounds (rem : Str) (lo : Nat) :
    ∀ k i, findBreakAux rem lo k = some i → lo < i ∧ i ≤ k := by
  intro k
  induction k with
  | zero => intro i h; simp [findBreakAux] at h
  | succ m ih =>
    intro i h
    simp only [findBreakAux] at h
    by_cases h1 : m + 1 ≤ lo
    · rw [if_pos h1] at h
      exact absurd h (by simp)
    · rw [if_neg h1] at h
      by_cases h2 : rem.getD (m + 1) '\x00' = ' '
      · rw [if_pos h2] at h
        have hi : m + 1 = i := by simpa using h
        exact ⟨by omega, by omega⟩
      · rw [if_neg h2] at h
        have := ih i h
        exact ⟨this.1, Nat.le_succ_of_le this.2⟩

/-- Trimming never lengthens a string. -/
theorem trimSpaceGo_length_le (l : Str) : (trimSpaceGo l).length ≤ l.length := by
  unfold trimSpaceGo trimRightGo trimLeftGo
  have h1 : (List.dropWhile isGoSpace (List.dropWhile isGoSpace l).reverse).length
      ≤ (List.dropWhile isGoSpace l).reverse.length :=
    (List.dropWhile_sublist _).length_le
  have h2 : (List.dropWhile isGoSpace l).length ≤ l.length :=
    (List.dropWhile_sublist _).length_le
  simp only [List.length_reverse] at h1 ⊢
  omega

/-- When the indent is at most half the maximum length, one folding step
strictly shortens the remaining text. -/
theorem hlcStep_snd_length_lt (w : Writer) (rem : Str)
    (hpos : 0 < w.maxLineLength)
    (hind : w.continuationIndent ≤ w.maxLineLength.toNat / 2)
    (hlen : w.maxLineLength < (rem.length : Int)) :
    (hlcStep w rem).2.length < rem.length := by
  have hm1 : 1 ≤ w.maxLineLength.toNat := by omega
  have hmlen : w.maxLineLength.toNat < rem.length := by omega
  simp only [hlcStep]
  set m := w.maxLineLength.toNat with hm
  set bp := (findBreakAux rem (m / 2) (m - 1)).getD m with hbp
  have hbp_lb : m / 2 < bp := by
    rcases hfb : findBreakAux rem (m / 2) (m - 1) with _ | i
    · rw [hbp, hfb]
      simp only [Option.getD_none]
      omega
    · have := findBreakAux_bounds rem (m / 2) (m - 1) i hfb
      rw [hbp, hfb]
      simpa using this.1
  have hbp_ub : bp ≤ m := by
    rcases hfb : findBreakAux rem (m / 2) (m - 1) with _ | i
    · rw [hbp, hfb]; simp
    · have := findBreakAux_bounds rem (m / 2) (m - 1) i hfb
      rw [hbp, hfb]
      simp only [Option.getD_some]
      omega
  have htr : (trimSpaceGo (rem.drop bp)).length ≤ rem.length - bp := by
    calc (trimSpaceGo (rem.drop bp)).length
        ≤ (rem.drop bp).length := trimSpaceGo_length_le _
      _ = rem.length - bp := by simp
  split_ifs with hemp
  · simpa using by omega
  · simp only [List.length_append, List.length_replicate]
    omega

/-- With enough fuel for the remaining length, the folding loop finishes. -/
theorem hlcLoop_isSome (w : Writer) (hpos : 0 < w.maxLineLength)
    (hind : w.continuationIndent ≤ w.maxLineLength.toNat / 2) :
    ∀ fuel rem, rem.length ≤ w.maxLineLength.toNat + fuel →
      (hlcLoop w fuel rem).isSome = true := by
  intro fuel
  induction fuel with
  | zero =>
    intro rem h
    have hle : (rem.length : Int) ≤ w.maxLineLength := by omega
    simp [hlcLoop, hle]
  | succ f ih =>
    intro rem h
    by_cases hle : (rem.length : Int) ≤ w.maxLineLength
    · simp [hlcLoop, hle]
    · have hlt := hlcStep_snd_length_lt w rem hpos hind (by omega)
      have hnext : (hlcStep w rem).2.length ≤ w.maxLineLength.toNat + f := by omega
      have hres := ih _ hnext
      cases hsome : hlcLoop w f (hlcStep w rem).2 with
      | none => rw [hsome] at hres; simp at hres
      | some ls => simp [hlcLoop, hle, hsome]

/-- C8 (amended): for every rendered line, the writer's folding loop
terminates whenever the continuation indent is at most half the maximum
line length (Go integer division); fuel equal to the line's length always
suffices. Without that bound the loop can run forever, as the
counterexample shows. -/
theorem handleLineContinuation_terminates (w : Writer) (line : Str)
    (hpos : 0 < w.maxLineLength)
    (hind : w.continuationIndent ≤ w.maxLineLength.toNat / 2) :
    (handleLineContinuationF w line.length line).isSome = true := by
  unfold handleLineContinuationF
  split_ifs with h
  · rfl
  · exact hlcLoop_isSome w hpos hind line.length line (by omega)

/-- C8 witness: the default writer (maximum length 100, indent 4) folds
the short line `ab`. -/
theorem handleLineContinuation_terminates_witness :
    (handleLineContinuationF ({} : Writer) ("ab".data).length "ab".data).isSome = true :=
  handleLineContinuation_terminates {} "ab".data (by decide) (by decide)

/-- One folding step at the counterexample fixed point returns the same
remaining text: the break point lands inside the inserted indentation. -/
theorem hlcStep_cex_fixed :
    hlcStep hlcCexWriter hlcCexRem = (" \\".data, hlcCexRem) := by decide

/-- The loop at the fixed point never finishes, whatever the fuel. -/
theorem hlcLoop_cex_none : ∀ fuel, hlcLoop hlcCexWriter fuel hlcCexRem = none := by
  intro fuel
  induction fuel with
  | zero => decide
  | succ f ih =>
    simp only [hlcLoop]
    rw [if_neg (by decide), hlcStep_cex_fixed]
    simp [ih]

/-- C8 counterexample: the writer configuration with maximum line length 4
and continuation indent 10 (both within the claim's positive-length,
non-negative-indent range) never finishes folding the line `abcdef`:
after one step the remaining text reaches the fixed point and the loop
runs forever. -/
theorem handleLineContinuation_cex :
    ¬ ∃ fuel : Nat,
      (handleLineContinuationF hlcCexWriter fuel "abcdef".data).isSome = true := by
  rintro ⟨fuel, hf⟩
  have h1 : handleLineContinuationF hlcCexWriter fuel "abcdef".data
      = hlcLoop hlcCexWriter fuel "abcdef".data := by
    unfold handleLineContinuationF
    rw [if_neg (by decide)]
  have h2 : ∀ f, hlcLoop hlcCexWriter f "abcdef".data = none := by
    intro f
    cases f with
    | zero => decide
    | succ f2 =>
      have hstep : hlcStep hlcCexWriter "abcdef".data = ("abcd \\".data, hlcCexRem) := by
        decide
      simp only [hlcLoop]
      rw [if_neg (by decide), hstep]
      simp [hlcLoop_cex_none f2]
  rw [h1, h2 fuel] at hf
  simp at hf

/-! ## C4: the writer's emission order

The reference facts relate Go's map-plus-two-loops grouping to a direct
description: stable filtering by normalized category, with the keys beyond
the writer's fixed list taken in first-occurrence order (the model of the
Go map's range loop). -/

/-- Append a key unless it is already present. -/
def addKeyOnce (ks : List Str) (k : Str) : List Str :=
  if k ∈ ks then ks else ks ++ [k]

/-- The distinct keys of a list, in first-occurrence order. -/
def firstOccur (l : List Str) : List Str := l.foldl addKeyOnce []

theorem mem_foldl_addKeyOnce (x : Str) :
    ∀ (l : List Str) (acc : List Str),
      x ∈ l.foldl addKeyOnce acc ↔ x ∈ acc ∨ x ∈ l := by
  intro l
  induction l with
  | nil => intro acc; simp
  | cons k l ih =>
    intro acc
    rw [List.foldl_cons, ih]
    unfold addKeyOnce
    split_ifs with hk
    · simp only [List.mem_cons]
      constructor
      · rintro (h | h)
        · exact Or.inl h
        · exact Or.inr (Or.inr h)
      · rintro (h | h | h)
        · exact Or.inl h
        · exact Or.inl (h ▸ hk)
        · exact Or.inr h
    · simp only [List.mem_append, List.mem_singleton, List.mem_cons]
      tauto

theorem mem_firstOccur (x : Str) (l : List Str) : x ∈ firstOccur l ↔ x ∈ l := by
  unfold firstOccur
  rw [mem_foldl_addKeyOnce]
  simp

theorem nodup_foldl_addKeyOnce :
    ∀ (l : List Str) (acc : List Str), acc.Nodup → (l.foldl addKeyOnce acc).Nodup := by
  intro l
  induction l with
  | nil => intro acc h; simpa
  | cons k l ih =>
    intro acc h
    rw [List.foldl_cons]
    apply ih
    unfold addKeyOnce
    split_ifs with hk
    · exact h
    · simp [List.nodup_append, h, hk]

theorem nodup_firstOccur (l : List Str) : (firstOccur l).Nodup :=
  nodup_foldl_addKeyOnce l [] List.nodup_nil

/-- The direct description of typeGroups: one entry per distinct normalized
type in first-occurrence order, holding the stable filter of the rules. -/
def groupsOf (m : List Rule) : List (Str × List Rule) :=
  (firstOccur (m.map groupKey)).map fun k => (k, m.filter fun r => groupKey r == k)

theorem groupInsert_map_mem {F : Str → List Rule} (r : Rule) :
    ∀ ks : List Str, ks.Nodup → groupKey r ∈ ks →
      groupInsert (ks.map fun k => (k, F k)) (groupKey r) r
        = ks.map fun k => (k, F k ++ if k = groupKey r then [r] else []) := by
  intro ks
  induction ks with
  | nil => intro _ h; simp at h
  | cons a ks ih =>
    intro hnd hmem
    have hand := List.nodup_cons.mp hnd
    simp only [List.map_cons, groupInsert]
    by_cases ha : a = groupKey r
    · rw [if_pos ha, if_pos ha]
      congr 1
      apply List.map_congr_left
      intro k hk
      have hne : k ≠ groupKey r := fun he => hand.1 (by rw [ha, ← he]; exact hk)
      simp [hne]
    · rw [if_neg ha, if_neg ha]
      have hmem' : groupKey r ∈ ks := by
        rcases List.mem_cons.mp hmem with h | h
        · exact absurd h.symm ha
        · exact h
      rw [ih hand.2 hmem']
      simp

theorem groupInsert_map_not_mem {F : Str → List Rule} (r : Rule) :
    ∀ ks : List Str, groupKey r ∉ ks →
      groupInsert (ks.map fun k => (k, F k)) (groupKey r) r
        = (ks.map fun k => (k, F k)) ++ [(groupKey r, [r])] := by
  intro ks
  induction ks with
  | nil => intro _; rfl
  | cons a ks ih =>
    intro hmem
    have ha : a ≠ groupKey r := fun he => hmem (by simp [he])
    have hmem' : groupKey r ∉ ks := fun hm => hmem (by simp [hm])
    simp only [List.map_cons, groupInsert, if_neg ha]
    rw [ih hmem']
    simp

/-- One loop iteration of the grouping pass, against the description. -/
theorem step_groupsOf (pref : List Rule) (r : Rule) :
    groupInsert (groupsOf pref) (groupKey r) r = groupsOf (pref ++ [r]) := by
  unfold groupsOf
  have hfilter : ∀ k : Str, (pref ++ [r]).filter (fun x => groupKey x == k)
      = pref.filter (fun x => groupKey x == k)
        ++ if groupKey r = k then [r] else [] := by
    intro k
    rw [List.filter_append]
    congr 1
    by_cases hk : groupKey r = k
    · simp [List.filter, hk]
    · have hb : (groupKey r == k) = false := by simpa using hk
      simp [List.filter, hk, hb]
  by_cases hk : groupKey r ∈ firstOccur (pref.map groupKey)
  · rw [groupInsert_map_mem r _ (nodup_firstOccur _) hk]
    have hfo : firstOccur ((pref ++ [r]).map groupKey) = firstOccur (pref.map groupKey) := by
      have : groupKey r ∈ pref.map groupKey := (mem_firstOccur _ _).mp hk
      simp [List.map_append, firstOccur, List.foldl_append, addKeyOnce,
        (mem_foldl_addKeyOnce _ _ _).mpr (Or.inr this)]
    rw [hfo]
    apply List.map_congr_left
    intro k hkm
    rw [hfilter k]
    congr 1
    by_cases he : k = groupKey r <;> simp [he, eq_comm]
  · rw [groupInsert_map_not_mem r _ hk]
    have hkm : groupKey r ∉ pref.map groupKey := fun hm => hk ((mem_firstOccur _ _).mpr hm)
    have hfo : firstOccur ((pref ++ [r]).map groupKey)
        = firstOccur (pref.map groupKey) ++ [groupKey r] := by
      have h2 : groupKey r ∉ List.foldl addKeyOnce [] (pref.map groupKey) := hk
      simp [List.map_append, firstOccur, List.foldl_append, addKeyOnce, h2]
    rw [hfo, List.map_append]
    congr 1
    · apply List.map_congr_left
      intro k hkm2
      rw [hfilter k]
      have hne : groupKey r ≠ k := fun he => hk (he ▸ hkm2)
      simp [hne]
    · simp only [List.map_cons, List.map_nil]
      rw [hfilter (groupKey r)]
      have hnil : pref.filter (fun x => groupKey x == groupKey r) = [] := by
        rw [List.filter_eq_nil_iff]
        intro x hx
        simp only [beq_iff_eq]
        intro he
        exact hkm (by rw [← he]; exact List.mem_map_of_mem _ hx)
      simp [hnil]

theorem foldl_groupInsert_groupsOf (l : List Rule) :
    ∀ pref : List Rule,
      l.foldl (fun g r => groupInsert g (groupKey r) r) (groupsOf pref)
        = groupsOf (pref ++ l) := by
  induction l with
  | nil => intro pref; simp
  | cons r l ih =>
    intro pref
    rw [List.foldl_cons, step_groupsOf, ih]
    simp

/-- buildGroups computes the first-occurrence stable grouping. -/
theorem buildGroups_eq (m : List Rule) : buildGroups m = groupsOf m := by
  have h := foldl_groupInsert_groupsOf m []
  simpa [buildGroups, groupsOf, firstOccur] using h

theorem lookupGroup_map {F : Str → List Rule} (t : Str) :
    ∀ ks : List Str,
      lookupGroup t (ks.map fun k => (k, F k)) = if t ∈ ks then some (F t) else none := by
  intro ks
  induction ks with
  | nil => simp [lookupGroup]
  | cons a ks ih =>
    simp only [List.map_cons, lookupGroup]
    by_cases ha : a = t
    · subst ha
      simp
    · rw [if_neg ha, ih]
      by_cases ht : t ∈ ks <;> simp [ht, ha, Ne.symm ha]

/-- The known-order loop appends, for each fixed category in turn, the
stable filter of the regular rules. -/
theorem known_foldl (m : List Rule) :
    ∀ (ts : List Str) (acc : List Rule),
      ts.foldl (fun acc t =>
        match lookupGroup t (groupsOf m) with
        | some rs => acc ++ rs
        | none => acc) acc
      = acc ++ ts.flatMap fun t => m.filter fun r => groupKey r == t := by
  intro ts
  induction ts with
  | nil => intro acc; simp
  | cons t ts ih =>
    intro acc
    rw [List.foldl_cons]
    have hlook := lookupGroup_map (F := fun k => m.filter fun r => groupKey r == k) t
      (firstOccur (m.map groupKey))
    by_cases ht : t ∈ firstOccur (m.map groupKey)
    · rw [show lookupGroup t (groupsOf m)
          = some (m.filter fun r => groupKey r == t) by rw [groupsOf, hlook, if_pos ht]]
      rw [ih]
      simp
    · have hnil : m.filter (fun r => groupKey r == t) = [] := by
        rw [List.filter_eq_nil_iff]
        intro x hx
        simp only [beq_iff_eq]
        intro he
        exact ht ((mem_firstOccur _ _).mpr (by rw [← he]; exact List.mem_map_of_mem _ hx))
      rw [show lookupGroup t (groupsOf m) = none by rw [groupsOf, hlook, if_neg ht]]
      rw [ih]
      simp [hnil]

/-- The map-range loop appends the groups whose key is outside the fixed
list, in the association list's order. -/
theorem unknown_foldl :
    ∀ (gs : List (Str × List Rule)) (acc : List Rule),
      gs.foldl (fun acc g => if writerTypeOrder.contains g.1 then acc else acc ++ g.2) acc
      = acc ++ (gs.filter fun g => !writerTypeOrder.contains g.1).flatMap (·.2) := by
  intro gs
  induction gs with
  | nil => intro acc; simp
  | cons g gs ih =>
    intro acc
    rw [List.foldl_cons]
    by_cases hg : g.1 ∈ writerTypeOrder
    · rw [if_pos (by simpa using hg), ih]
      simp [List.filter_cons, hg]
    · rw [if_neg (by simpa using hg), ih]
      simp [List.filter_cons, hg, List.append_assoc]

/-- C4 counterexample: a configuration holding an unknown-category rule
`zzz` followed by a session-noninteractive rule. The writer's fixed order
list ends at session, so session-noninteractive is grouped with the
unknown categories and stays after the earlier-seen `zzz` group — not
before every unknown category, as the claimed total order requires. -/
theorem sortRulesByType_sni_cex :
    sortRulesByType [ruleZZZ, ruleSNI] = [ruleZZZ, ruleSNI] ∧
      ruleZZZ.type = "zzz".data ∧ ruleSNI.type = "session-noninteractive".data ∧
      sortRulesByType [ruleZZZ, ruleSNI] ≠ [ruleSNI, ruleZZZ] := by decide

/-- C4 (amended): the writer emits the rule groups of the four categories
account, auth, password, session in that fixed order; session-noninteractive
and every unknown category follow after them, grouped by
suppression-marker-stripped category in the order of Go's map iteration
(modelled as first occurrence), with original relative order inside every
group; all directives come last in their original relative order. The
order is deterministic only once a map iteration order is fixed. -/
theorem sortRulesByType_emission_order (rules : List Rule) :
    sortRulesByType rules =
      (writerTypeOrder.flatMap fun t =>
        (rules.filter fun r => !r.isDirective).filter fun r => groupKey r == t) ++
      (((firstOccur ((rules.filter fun r => !r.isDirective).map groupKey)).filter
          fun t => !writerTypeOrder.contains t).flatMap
        fun t => (rules.filter fun r => !r.isDirective).filter fun r => groupKey r == t) ++
      rules.filter (·.isDirective) := by
  simp only [sortRulesByType]
  rw [buildGroups_eq]
  rw [known_foldl (rules.filter fun r => !r.isDirective) writerTypeOrder []]
  rw [unknown_foldl (groupsOf (rules.filter fun r => !r.isDirective))]
  simp only [List.nil_append]
  have hmid : ((groupsOf (rules.filter fun r => !r.isDirective)).filter
        fun g => !writerTypeOrder.contains g.1).flatMap (·.2)
      = ((firstOccur ((rules.filter fun r => !r.isDirective).map groupKey)).filter
          fun t => !writerTypeOrder.contains t).flatMap
        fun t => (rules.filter fun r => !r.isDirective).filter fun r => groupKey r == t := by
    unfold groupsOf
    generalize firstOccur ((rules.filter fun r => !r.isDirective).map groupKey) = ks
    induction ks with
    | nil => simp
    | cons a ks ih =>
      by_cases ha : a ∈ writerTypeOrder
      · have hc : (!writerTypeOrder.contains a) = false := by simpa using ha
        simp only [List.map_cons, List.filter_cons, hc, Bool.false_eq_true, if_false, ih]
      · have hc : (!writerTypeOrder.contains a) = true := by simpa using ha
        simp only [List.map_cons, List.filter_cons, hc, if_true, List.flatMap_cons, ih]
  rw [hmid]

/-! ## C10: standalone comments come first -/

/-- The section bookkeeping only ever appends to the line buffer. -/
theorem sectionStep_fst (lines : List Str) (curType : Str) (r : Rule) :
    ∃ mid, (sectionStep lines curType r).1 = lines ++ mid := by
  simp only [sectionStep]
  by_cases hd : r.isDirective = true
  · rw [if_pos hd]; exact ⟨[], by simp⟩
  · rw [if_neg hd]
    by_cases hnt : GetNormalizedModuleType r.type ≠ curType
    · rw [if_pos hnt]
      by_cases hbl : (!lines.isEmpty && !startsWithHash (lines.getLastD [])) = true
      · rw [if_pos hbl]; exact ⟨[[]], rfl⟩
      · rw [if_neg hbl]; exact ⟨[], by simp⟩
    · rw [if_neg hnt]; exact ⟨[], by simp⟩

/-- The rule loop only ever appends to the line buffer. -/
theorem writeRuleLines_prefix (w : Writer) (fuel : Nat) :
    ∀ (rules : List Rule) (lines : List Str) (curType : Str) (out : List Str),
      writeRuleLines w fuel rules lines curType = some out →
      ∃ rest, out = lines ++ rest := by
  intro rules
  induction rules with
  | nil =>
    intro lines curType out h
    simp only [writeRuleLines] at h
    exact ⟨[], by simp [← Option.some.inj h]⟩
  | cons r rest ih =>
    intro lines curType out h
    simp only [writeRuleLines] at h
    split at h
    · exact absurd h (by simp)
    · rename_i rl heq
      obtain ⟨r2, hr2⟩ := ih _ _ _ h
      obtain ⟨mid, hmid⟩ := sectionStep_fst lines curType r
      exact ⟨mid ++ rl ++ r2, by rw [hr2, hmid]; simp⟩

/-- C10: for every configuration and writer, whenever Write produces
output, the standalone comments come first, each on its own line prefixed
with `# `, in their stored order, before any rule or directive line. -/
theorem writeLines_comments_first (w : Writer) (fuel : Nat) (cfg : Config)
    (ls : List Str) (h : writeLines w fuel cfg = some ls) :
    ∃ rest, ls = cfg.comments.map (fun c => "# ".data ++ c) ++ rest := by
  unfold writeLines at h
  exact writeRuleLines_prefix w fuel _ _ _ ls h

/-- C10 witness: two comments and one auth rule; the two `# ` lines lead. -/
theorem writeLines_comments_first_witness :
    ∃ rest, ["# one".data, "# two".data, "auth required pam_unix.so".data]
      = cfgW10.comments.map (fun c => "# ".data ++ c) ++ rest :=
  writeLines_comments_first {} 0 cfgW10
    ["# one".data, "# two".data, "auth required pam_unix.so".data] (by decide)

end Pamparser
